import Mathlib

/-
Shallow embedding of `src/msgparse/utils.py` from the hipchat-msgparse
repository, together with proofs about the behaviour its specification
claims.

Modelling conventions:
* Python iterables are modelled as Lean `List`s; a Python iterator (the
  thing `next` pulls from) is modelled as its stream of produced values,
  a function `Nat → Option α` (`none` once exhausted).
* Python `dict`s are modelled as association lists in iteration order
  (CPython dicts preserve insertion order).
* Python strings are modelled as `List Char`; the compiled regular
  expressions of the `Pattern` class are transcribed as executable
  matchers rendering the backtracking semantics of CPython `re`
  (leftmost scan, greedy quantifiers, first-alternative preference).
* Exceptions are modelled with `Except`.
-/

namespace Msgparse

/-- `ident(f)`: the identity function, `f(x) = x`. -/
def ident {α : Type u} (f : α) : α := f

/-- `first(iterable, or_=None)`: `next(iterable, or_)` — pull one value from
the iterator, returning `or_` when it is already exhausted.  The iterator is
modelled by its stream of produced values `Nat → Option α`; pulling once
reads position `0` only. -/
def first {α : Type} (iterable : Nat → Option α) (or_ : α) : α :=
  match iterable 0 with
  | some x => x
  | none => or_

/-- The iterator produced by a Python list: position `n` yields the `n`-th
element while it exists. -/
def iterOfList {α : Type} (xs : List α) : Nat → Option α :=
  fun n => xs.get? n

/-- `filterdict(d, func=ident)`: `{ k : v for k, v in d.items() if func(v) }`,
a filtered copy of `d` keeping entries whose value satisfies `func`. -/
def filterdict {κ ν : Type} (d : List (κ × ν)) (func : ν → Bool) : List (κ × ν) :=
  d.filter (fun kv => func kv.2)

/-- The loop body of `unique`: walk the iterable carrying the `seen` set of
keys, skipping an element whose key was already seen and otherwise yielding
it and adding its key.  The Python `set` is modelled as the list of keys
added so far (membership is all the code uses). -/
def uniqueAux {α κ : Type} [DecidableEq κ] (key : α → κ) : List α → List κ → List α
  | [], _ => []
  | x :: xs, seen =>
    if key x ∈ seen then uniqueAux key xs seen
    else x :: uniqueAux key xs (key x :: seen)

/-- `unique(iterable, key=ident)`: filter duplicates from an iterable while
keeping order; uniqueness is judged by `key`, starting from an empty `seen`
set. -/
def unique {α κ : Type} [DecidableEq κ] (iterable : List α) (key : α → κ) : List α :=
  uniqueAux key iterable []

/-- A record produced by `immutable`: the CPython value is a `namedtuple`
instance, which carries its class name and field names but whose data is the
tuple of field values. -/
structure NamedTuple (V : Type) where
  clazzName : String
  fieldNames : List String
  values : List V
deriving DecidableEq

/-- `immutable(clazz_name, **attrs)`:
`namedtuple(clazz_name, attrs.keys())(**attrs)` — build a namedtuple class
named `clazz_name` with the keys of `attrs` as fields and instantiate it
with the values of `attrs`, in the keyword-argument order. -/
def immutable {V : Type} (clazz_name : String) (attrs : List (String × V)) :
    NamedTuple V :=
  ⟨clazz_name, attrs.map Prod.fst, attrs.map Prod.snd⟩

/-- Python `==` on two namedtuple instances: `namedtuple` inherits
`tuple.__eq__`, which compares the value tuples elementwise and ignores the
class name and the field names. -/
def NamedTuple.pyEq {V : Type} [DecidableEq V] (a b : NamedTuple V) : Bool :=
  decide (a.values = b.values)

/-- Python `==` between a namedtuple instance and a plain tuple: again plain
tuple comparison of the values. -/
def NamedTuple.pyEqTuple {V : Type} [DecidableEq V] (a : NamedTuple V)
    (t : List V) : Bool :=
  decide (a.values = t)

/-- Python attribute assignment on a namedtuple instance: namedtuples define
`__slots__ = ()` and tuples are immutable, so `setattr` always raises
`AttributeError` and never produces an updated record. -/
def NamedTuple.setattr {V : Type} (_a : NamedTuple V) (_f : String) (_v : V) :
    Except String (NamedTuple V) :=
  Except.error "AttributeError: cannot set attribute"

/-- Python `\w` (ASCII range): letters, digits and the underscore. -/
def isWordChar (c : Char) : Bool := c.isAlphanum || c == '_'

/-- `Pattern.mention`, the compiled regex `(?<=[@])[\w]+`, matching at one
position: the zero-width lookbehind requires the previous character to be
`@`; the greedy `[\w]+` then consumes the longest nonempty run of word
characters.  `prev` is the character just before the current position
(`none` at the start of the string); the result is the captured text. -/
def mentionMatch (prev : Option Char) (s : List Char) : Option (List Char) :=
  if prev = some '@' then
    if s.takeWhile isWordChar = [] then none
    else some (s.takeWhile isWordChar)
  else none

/-- The greedy `[a-zA-Z0-9]{1,15}(?=[)])` part of `Pattern.emoticon`,
matching at one position: backtracking tries to consume `j` alphanumeric
characters for `j = 15, 14, …, 1` (longest first), succeeding when the
zero-width lookahead sees `)` right after the consumed characters. -/
def emoTry (s : List Char) : Nat → Option (List Char)
  | 0 => none
  | j + 1 =>
    if (s.take (j + 1)).length = j + 1 ∧ (s.take (j + 1)).all Char.isAlphanum = true
        ∧ s.get? (j + 1) = some ')' then
      some (s.take (j + 1))
    else emoTry s j

/-- `Pattern.emoticon`, the compiled regex `(?<=[(])[a-zA-Z0-9]{1,15}(?=[)])`,
matching at one position: the lookbehind requires the previous character to
be `(`, then `emoTry` runs the bounded greedy repetition with lookahead. -/
def emoticonMatch (prev : Option Char) (s : List Char) : Option (List Char) :=
  if prev = some '(' then emoTry s 15 else none

/-- One character admitted by the repeated group of the first alternative
of `Pattern.url`, `(?:[a-zA-Z]|[0-9]|[$-_@.&+]|[!*\(\),]|…)`: a letter, a digit,
a character in the range `$`–`_` (which already contains `@ . & + * ( ) ,`
and `%`), or one of the individually listed characters. -/
def isUrlBodyChar (c : Char) : Bool :=
  c.isAlpha || c.isDigit
    || (Char.toNat '$' ≤ c.toNat && c.toNat ≤ Char.toNat '_')
    || c == '@' || c == '.' || c == '&' || c == '+'
    || c == '!' || c == '*' || c == '(' || c == ')' || c == ','

/-- An ASCII hexadecimal digit, as in the `%[0-9a-fA-F][0-9a-fA-F]`
alternative of `Pattern.url`. -/
def isHexChar (c : Char) : Bool :=
  c.isDigit || ('a' ≤ c && c ≤ 'f') || ('A' ≤ c && c ≤ 'F')

/-- The number of characters consumed by the greedy
`(?:[a-zA-Z]|[0-9]|[$-_@.&+]|[!*\(\),]|(?:%[0-9a-fA-F][0-9a-fA-F]))+`
repetition of `Pattern.url`, tried alternative by alternative at each step:
a single-character class match consumes one character; otherwise a
percent-encoded byte consumes three; otherwise the repetition stops.
(The `%XX` branch is transcribed for fidelity although `%` already falls in
the `$`–`_` range tried before it.) -/
def urlBodyLen : List Char → Nat
  | [] => 0
  | c :: rest =>
    if isUrlBodyChar c then 1 + urlBodyLen rest
    else
      match c, rest with
      | '%', d :: e :: rest2 =>
        if isHexChar d && isHexChar e then 3 + urlBodyLen rest2 else 0
      | _, _ => 0

/-- The `http[s]?://` scheme part of the first alternative of `Pattern.url`: the
greedy optional `[s]?` prefers consuming an `s`; on success return the
number of characters consumed and the remaining text. -/
def urlScheme : List Char → Option (Nat × List Char)
  | 'h' :: 't' :: 't' :: 'p' :: 's' :: ':' :: '/' :: '/' :: rest => some (8, rest)
  | 'h' :: 't' :: 't' :: 'p' :: ':' :: '/' :: '/' :: rest => some (7, rest)
  | _ => none

/-- First alternative of `Pattern.url`
(`http[s]?://(?:…)+`), matching at one position; returns the matched
length.  The repetition must consume at least one character. -/
def urlBranch1 (s : List Char) : Option Nat :=
  match urlScheme s with
  | some (n, rest) =>
    if 1 ≤ urlBodyLen rest then some (n + urlBodyLen rest) else none
  | none => none

/-- Length of the longest run of non-whitespace characters at the front of
the text, the greedy first try of `\S+`. -/
def nonWsRun (s : List Char) : Nat := (s.takeWhile (fun c => !c.isWhitespace)).length

/-- Length of the longest run of ASCII letters at the front of the text,
towards the greedy `[a-zA-Z]{2,6}`. -/
def letterRun (s : List Char) : Nat := (s.takeWhile Char.isAlpha).length

/-- Second alternative of `Pattern.url` (`\S+[.][a-zA-Z]{2,6}`), matching at
one position: backtracking shrinks the greedy `\S+` from the full
non-whitespace run down to one character; for each length it requires a `.`
next, followed by 2–6 letters taken greedily.  Called with the
non-whitespace run length as initial fuel; returns the matched length. -/
def urlBranch2 (s : List Char) : Nat → Option Nat
  | 0 => none
  | n + 1 =>
    if s.get? (n + 1) = some '.' then
      if 2 ≤ min (letterRun (s.drop (n + 2))) 6 then
        some (n + 2 + min (letterRun (s.drop (n + 2))) 6)
      else urlBranch2 s n
    else urlBranch2 s n

/-- `Pattern.url`, matching at one position: the alternation tries the
scheme-prefixed branch first and the bare-domain branch only if it fails;
the result is the matched text. -/
def urlMatch (_prev : Option Char) (s : List Char) : Option (List Char) :=
  match urlBranch1 s with
  | some n => some (s.take n)
  | none =>
    match urlBranch2 s (nonWsRun s) with
    | some n => some (s.take n)
    | none => none

/-- One pass of `re.findall`-style scanning, fuelled for structural
recursion (the fuel is initialised to the text length, which suffices since
every step consumes at least one character): try the matcher at the current
position; on failure advance one character; on a (nonempty) match emit the
matched text and resume right after it, tracking the character preceding the
new position for the lookbehinds. -/
def scanAllFuel (m : Option Char → List Char → Option (List Char)) :
    Nat → Option Char → List Char → List (List Char)
  | 0, _, _ => []
  | _ + 1, _, [] => []
  | fuel + 1, prev, c :: rest =>
    match m prev (c :: rest) with
    | some (t0 :: t1) =>
      (t0 :: t1) ::
        scanAllFuel m fuel ((c :: rest).get? t1.length) ((c :: rest).drop (t1.length + 1))
    | _ => scanAllFuel m fuel (some c) rest

/-- `pattern.findall(text)`: all non-overlapping matches, scanning left to
right from the start of the text. -/
def findall (m : Option Char → List Char → Option (List Char))
    (s : List Char) : List (List Char) :=
  scanAllFuel m s.length none s

/-- What the specification says `Pattern.mention` matches: a nonempty run of
word characters immediately preceded by `@` (the `@` itself excluded from
the captured text), the run being maximal (the character following it, if
any, is not a word character). -/
def mentionSpec (prev : Option Char) (s t : List Char) : Prop :=
  prev = some '@' ∧ t ≠ [] ∧ t.all isWordChar = true
    ∧ ∃ r, s = t ++ r ∧ ∀ c, r.head? = some c → isWordChar c = false

/-- What the specification says `Pattern.emoticon` matches: a 1–15 character
alphanumeric token enclosed in parentheses, capturing only the inner
token. -/
def emoticonSpec (prev : Option Char) (s t : List Char) : Prop :=
  prev = some '(' ∧ 1 ≤ t.length ∧ t.length ≤ 15 ∧ t.all Char.isAlphanum = true
    ∧ ∃ r, s = t ++ ')' :: r

/-- A markup element as `HTML.iter` exposes it: a tag name and textual
content. -/
structure MarkupElement where
  tag : String
  text : String
deriving DecidableEq

/-- Modelled from the spec: `lxml.etree.iterparse(BytesIO(content),
recover=True, html=True)` is an external collaborator (the recoverable
markup-parsing engine); the repository only consumes its event stream.  An
engine maps a byte content to the finite list of `(action, element)` events
it emits. -/
structure IterparseEngine where
  iterparse : List Nat → List (String × MarkupElement)

namespace HTML

/-- `HTML.iter(content)`: `for action, elem in context: yield elem` — yield
the element of every event the engine produces, in order. -/
def iter (engine : IterparseEngine) (content : List Nat) : List MarkupElement :=
  (engine.iterparse content).map (fun ae => ae.2)

end HTML

theorem uniqueAux_sublist {α κ : Type} [DecidableEq κ] (key : α → κ) :
    ∀ (xs : List α) (seen : List κ), (uniqueAux key xs seen).Sublist xs := by
  intro xs
  induction xs with
  | nil => intro seen; simp [uniqueAux]
  | cons x xs ih =>
    intro seen
    by_cases h : key x ∈ seen
    · simpa [uniqueAux, h] using (ih seen).cons x
    · simpa [uniqueAux, h] using (ih (key x :: seen)).cons₂ x

theorem uniqueAux_key_not_seen {α κ : Type} [DecidableEq κ] (key : α → κ) :
    ∀ (xs : List α) (seen : List κ) (y : α),
      y ∈ uniqueAux key xs seen → key y ∉ seen := by
  intro xs
  induction xs with
  | nil => intro seen y hy; simp [uniqueAux] at hy
  | cons x xs ih =>
    intro seen y hy
    by_cases h : key x ∈ seen
    · exact ih seen y (by simpa [uniqueAux, h] using hy)
    · rw [uniqueAux, if_neg h] at hy
      rcases List.mem_cons.mp hy with rfl | hy
      · exact h
      · intro hs
        exact ih (key x :: seen) y hy (List.mem_cons_of_mem _ hs)

theorem uniqueAux_pairwise {α κ : Type} [DecidableEq κ] (key : α → κ) :
    ∀ (xs : List α) (seen : List κ),
      (uniqueAux key xs seen).Pairwise (fun a b => key a ≠ key b) := by
  intro xs
  induction xs with
  | nil => intro seen; simp [uniqueAux]
  | cons x xs ih =>
    intro seen
    by_cases h : key x ∈ seen
    · simpa [uniqueAux, h] using ih seen
    · rw [uniqueAux, if_neg h]
      refine List.Pairwise.cons ?_ (ih (key x :: seen))
      intro b hb hkb
      exact uniqueAux_key_not_seen key xs (key x :: seen) b hb
        (by simp [hkb.symm])

theorem uniqueAux_first_occ {α κ : Type} [DecidableEq κ] (key : α → κ) :
    ∀ (xs : List α) (seen : List κ) (x z : α),
      xs.find? (fun y => decide (key y = key x)) = some z →
      key x ∉ seen → z ∈ uniqueAux key xs seen := by
  intro xs
  induction xs with
  | nil => intro seen x z hf; simp [List.find?] at hf
  | cons a xs ih =>
    intro seen x z hf hseen
    by_cases hk : key a = key x
    · rw [List.find?_cons_of_pos _ (by simp [hk])] at hf
      rcases Option.some.injEq .. ▸ hf with rfl
      have ha : key a ∉ seen := by rwa [hk]
      rw [uniqueAux, if_neg ha]
      exact List.mem_cons_self _ _
    · rw [List.find?_cons_of_neg _ (by simp [hk])] at hf
      by_cases h : key a ∈ seen
      · rw [uniqueAux, if_pos h]
        exact ih seen x z hf hseen
      · rw [uniqueAux, if_neg h]
        refine List.mem_cons_of_mem _ (ih (key a :: seen) x z hf ?_)
        intro hmem
        rcases List.mem_cons.mp hmem with he | hmem
        · exact hk he.symm
        · exact hseen hmem

theorem uniqueAux_of_pairwise {α κ : Type} [DecidableEq κ] (key : α → κ) :
    ∀ (xs : List α) (seen : List κ),
      (∀ y ∈ xs, key y ∉ seen) →
      xs.Pairwise (fun a b => key a ≠ key b) →
      uniqueAux key xs seen = xs := by
  intro xs
  induction xs with
  | nil => intro seen _ _; rfl
  | cons x xs ih =>
    intro seen hns hpw
    have hx : key x ∉ seen := hns x (List.mem_cons_self _ _)
    rw [uniqueAux, if_neg hx]
    rcases List.pairwise_cons.mp hpw with ⟨hhead, htail⟩
    have : uniqueAux key xs (key x :: seen) = xs := by
      refine ih (key x :: seen) ?_ htail
      intro y hy hmem
      rcases List.mem_cons.mp hmem with he | hmem
      · exact hhead y hy he.symm
      · exact hns y (List.mem_cons_of_mem _ hy) hmem
    rw [this]

/-- C2: `unique(xs, key)` contains no two elements with equal keys, is a
subsequence of `xs` (so the relative order of the kept elements is their
order in the input), and for every input element the first element of `xs`
carrying its key — `xs.find?` on key equality — is kept in the output, so
the first occurrence of each key is kept and later duplicates dropped. -/
theorem unique_dedup_spec {α κ : Type} [DecidableEq κ] (xs : List α) (key : α → κ) :
    (unique xs key).Pairwise (fun a b => key a ≠ key b)
    ∧ (unique xs key).Sublist xs
    ∧ ∀ x ∈ xs, ∃ z, xs.find? (fun y => decide (key y = key x)) = some z
        ∧ z ∈ unique xs key := by
  refine ⟨uniqueAux_pairwise key xs [], uniqueAux_sublist key xs [], ?_⟩
  intro x hx
  have hsome : (xs.find? (fun y => decide (key y = key x))).isSome := by
    rw [List.find?_isSome]
    exact ⟨x, hx, by simp⟩
  rcases Option.isSome_iff_exists.mp hsome with ⟨z, hz⟩
  exact ⟨z, hz, uniqueAux_first_occ key xs [] x z hz (by simp)⟩

/-- Witness for C2 at a concrete input: in `[1, 2, 1]` the key `1` occurs
first at the head, and that occurrence is kept by `unique`. -/
theorem unique_dedup_spec_witness :
    ∃ z, [1, 2, 1].find? (fun y => decide (y = 1)) = some z
      ∧ z ∈ unique [1, 2, 1] (fun n : Nat => n) :=
  (unique_dedup_spec [1, 2, 1] (fun n : Nat => n)).2.2 1 (by decide)

/-- C6: `unique` is idempotent — applying it twice under the same key
function yields the same sequence as applying it once. -/
theorem unique_idempotent {α κ : Type} [DecidableEq κ] (xs : List α) (key : α → κ) :
    unique (unique xs key) key = unique xs key :=
  uniqueAux_of_pairwise key (unique xs key) []
    (fun y _ h => (List.not_mem_nil (key y)) h)
    (uniqueAux_pairwise key xs [])

/-- Witness for C6 at a concrete input. -/
theorem unique_idempotent_witness :
    unique (unique [1, 1, 2] (fun n : Nat => n)) (fun n : Nat => n)
      = unique [1, 1, 2] (fun n : Nat => n) :=
  unique_idempotent [1, 1, 2] (fun n : Nat => n)

/-- C3: `first` of an empty iterator with default 42 is 42; `first` of the
iterator over `[1, 2, 3]` with default 0 is 1; `first` on an infinite
generator is (total and) its head; and `first` depends only on the first
produced value of the iterator — it consumes at most one element. -/
theorem first_spec :
    first (iterOfList ([] : List Nat)) 42 = 42
    ∧ first (iterOfList [1, 2, 3]) 0 = 1
    ∧ first (fun n : Nat => some (n + 1)) 0 = 1
    ∧ ∀ (α : Type) (g h : Nat → Option α) (d : α), g 0 = h 0 → first g d = first h d := by
  refine ⟨rfl, rfl, rfl, ?_⟩
  intro α g h d hgh
  simp only [first, hgh]

/-- Witness for C3 at a concrete input: the constant generator and the
one-element list iterator agree at position 0, hence `first` agrees. -/
theorem first_spec_witness :
    first (fun _ : Nat => some 5) 0 = first (iterOfList [5]) 0 :=
  first_spec.2.2.2 Nat (fun _ => some 5) (iterOfList [5]) 0 rfl

theorem filterdict_count {κ ν : Type} [DecidableEq κ] [DecidableEq ν]
    (func : ν → Bool) (kv : κ × ν) :
    ∀ d : List (κ × ν),
      (filterdict d func).count kv = if func kv.2 then d.count kv else 0 := by
  intro d
  induction d with
  | nil => simp [filterdict]
  | cons a d ih =>
    simp only [filterdict] at ih ⊢
    rw [List.filter_cons]
    by_cases ha : a = kv
    · subst ha
      by_cases hf : func a.2 = true
      · simp [hf, List.count_cons, ih]
      · simp [hf, List.count_cons, ih]
    · by_cases hf : func a.2 = true
      · simp [hf, List.count_cons, ha, Ne.symm ha, ih]
      · simp [hf, List.count_cons, ha, Ne.symm ha, ih]

/-- C7: `filterdict(d, func)` contains exactly the entries of `d` whose
value satisfies `func` (membership and multiplicity), keeps them in the
input order (it is a sublist of `d`), and — being a pure function of its
argument in this embedding — leaves the input mapping unchanged; concretely
it keeps `a ↦ 1` and `c ↦ 2` but not `b ↦ 0` under the positivity test. -/
theorem filterdict_spec :
    (∀ (κ ν : Type) (d : List (κ × ν)) (func : ν → Bool) (kv : κ × ν),
        kv ∈ filterdict d func ↔ kv ∈ d ∧ func kv.2 = true)
    ∧ (∀ (κ ν : Type) (d : List (κ × ν)) (func : ν → Bool),
        (filterdict d func).Sublist d)
    ∧ (∀ (κ ν : Type) [DecidableEq κ] [DecidableEq ν]
        (d : List (κ × ν)) (func : ν → Bool) (kv : κ × ν),
        (filterdict d func).count kv = if func kv.2 then d.count kv else 0)
    ∧ filterdict [("a", 1), ("b", 0), ("c", 2)] (fun v => decide (0 < v))
        = [("a", 1), ("c", 2)] := by
  refine ⟨?_, ?_, ?_, by decide⟩
  · intro κ ν d func kv
    simp [filterdict, List.mem_filter]
  · intro κ ν d func
    exact List.filter_sublist d
  · intro κ ν _ _ d func kv
    exact filterdict_count func kv d

/-- Witness for C7 at a concrete input: `("a", 1)` satisfies the predicate
and is retained. -/
theorem filterdict_spec_witness :
    ("a", 1) ∈ filterdict [("a", 1), ("b", 0)] (fun v => decide (0 < v)) :=
  (filterdict_spec.1 String Nat [("a", 1), ("b", 0)] (fun v => decide (0 < v))
    ("a", 1)).mpr (by decide)

/-- C9: two records built by `immutable` with the same name and identical
field values compare equal under Python equality, and assigning to a field
of a built record fails with `AttributeError` rather than mutating it. -/
theorem immutable_spec :
    (∀ (V : Type) [DecidableEq V] (n : String) (attrs1 attrs2 : List (String × V)),
        attrs1 = attrs2 →
          NamedTuple.pyEq (immutable n attrs1) (immutable n attrs2) = true)
    ∧ (∀ (V : Type) (r : NamedTuple V) (f : String) (v : V),
        NamedTuple.setattr r f v = Except.error "AttributeError: cannot set attribute") := by
  constructor
  · intro V _ n attrs1 attrs2 h
    subst h
    simp [NamedTuple.pyEq]
  · intro V r f v
    rfl

/-- Witness for C9 at a concrete input: two builds of the same point record
compare equal, and a field assignment on it errors. -/
theorem immutable_spec_witness :
    NamedTuple.pyEq (immutable "Point" [("x", 1), ("y", 2)])
      (immutable "Point" [("x", 1), ("y", 2)]) = true :=
  immutable_spec.1 Nat "Point" [("x", 1), ("y", 2)] [("x", 1), ("y", 2)] rfl

/-- C10: equality of `immutable` records is purely positional tuple
equality — it holds exactly when the value tuples agree, regardless of the
record name or the field names, and a record also equals a plain tuple of
its values; concretely, records named `A` with fields `x, y` and named `B`
with fields `u, v` over the values `1, 2` compare equal. -/
theorem immutable_positional_eq :
    (∀ (V : Type) [DecidableEq V] (r1 r2 : NamedTuple V),
        NamedTuple.pyEq r1 r2 = true ↔ r1.values = r2.values)
    ∧ (∀ (V : Type) [DecidableEq V] (r : NamedTuple V) (t : List V),
        NamedTuple.pyEqTuple r t = true ↔ r.values = t)
    ∧ NamedTuple.pyEq (immutable "A" [("x", 1), ("y", 2)])
        (immutable "B" [("u", 1), ("v", 2)]) = true := by
  refine ⟨?_, ?_, by decide⟩
  · intro V _ r1 r2
    simp [NamedTuple.pyEq]
  · intro V _ r t
    simp [NamedTuple.pyEqTuple]

/-- Witness for C10 at a concrete input: a record equals the plain tuple of
its values. -/
theorem immutable_positional_eq_witness :
    NamedTuple.pyEqTuple (immutable "P" [("x", 3)]) [3] = true :=
  (immutable_positional_eq.2.1 Nat (immutable "P" [("x", 3)]) [3]).mpr rfl

theorem takeWhile_eq_append {α : Type} (p : α → Bool) :
    ∀ (t r : List α), t.all p = true → (∀ c, r.head? = some c → p c = false) →
      (t ++ r).takeWhile p = t := by
  intro t
  induction t with
  | nil =>
    intro r _ hr
    cases r with
    | nil => rfl
    | cons c r2 =>
      simp [List.takeWhile_cons, hr c rfl]
  | cons a t ih =>
    intro r hall hr
    have h2 : p a = true ∧ t.all p = true := by simpa using hall
    simp only [List.cons_append, List.takeWhile_cons, h2.1, if_pos]
    rw [ih r h2.2 hr]

/-- C8: `Pattern.mention` matches at a position exactly when the previous
character is `@` and the text starts with a nonempty maximal run of word
characters, the captured text being that run without the `@`; and find-all
on `"hello @frank and @sally_2"` yields `["frank", "sally_2"]`. -/
theorem mention_matches_runs :
    (∀ (prev : Option Char) (s t : List Char),
        mentionMatch prev s = some t ↔ mentionSpec prev s t)
    ∧ findall mentionMatch ("hello @frank and @sally_2".toList)
        = ["frank".toList, "sally_2".toList] := by
  constructor
  · intro prev s t
    constructor
    · intro h
      unfold mentionMatch at h
      by_cases hp : prev = some '@'
      · rw [if_pos hp] at h
        by_cases he : s.takeWhile isWordChar = []
        · rw [if_pos he] at h; cases h
        · rw [if_neg he] at h
          have ht : s.takeWhile isWordChar = t := Option.some.inj h
          subst ht
          refine ⟨hp, he, List.all_takeWhile, s.dropWhile isWordChar,
            (List.takeWhile_append_dropWhile isWordChar s).symm, ?_⟩
          intro c hc
          have hd := List.head?_dropWhile_not isWordChar s
          rw [hc] at hd
          exact hd
      · rw [if_neg hp] at h; cases h
    · rintro ⟨hp, hne, hall, r, rfl, hr⟩
      unfold mentionMatch
      rw [if_pos hp, takeWhile_eq_append isWordChar t r hall hr, if_neg hne]
  · decide

/-- Witness for C8 at a concrete input: after an `@`, the text `"bob"` is a
maximal word-character run, so the matcher captures it. -/
theorem mention_matches_runs_witness :
    mentionMatch (some '@') ("bob".toList) = some ("bob".toList) :=
  (mention_matches_runs.1 (some '@') ("bob".toList) ("bob".toList)).mpr
    ⟨rfl, by decide, by decide, [], by decide, fun c hc => by cases hc⟩

theorem emoTry_sound (s : List Char) :
    ∀ (fuel : Nat) (t : List Char), emoTry s fuel = some t →
      1 ≤ t.length ∧ t.length ≤ fuel ∧ t.all Char.isAlphanum = true
        ∧ s.take t.length = t ∧ s.get? t.length = some ')' := by
  intro fuel
  induction fuel with
  | zero => intro t h; cases h
  | succ j ih =>
    intro t h
    unfold emoTry at h
    by_cases hc : (s.take (j + 1)).length = j + 1
        ∧ (s.take (j + 1)).all Char.isAlphanum = true ∧ s.get? (j + 1) = some ')'
    · rw [if_pos hc] at h
      have ht : s.take (j + 1) = t := Option.some.inj h
      subst ht
      exact ⟨by omega, by omega, hc.2.1, by rw [hc.1], by rw [hc.1]; exact hc.2.2⟩
    · rw [if_neg hc] at h
      rcases ih t h with ⟨h1, h2, h3, h4, h5⟩
      exact ⟨h1, by omega, h3, h4, h5⟩

theorem emoTry_complete (s : List Char) :
    ∀ (fuel : Nat) (t r : List Char), t.length ≤ fuel → 1 ≤ t.length →
      t.all Char.isAlphanum = true → s = t ++ ')' :: r →
      emoTry s fuel = some t := by
  intro fuel
  induction fuel with
  | zero => intro t r hf h1 _ _; omega
  | succ j ih =>
    intro t r hf h1 hall hs
    have htake : s.take t.length = t := by
      rw [hs]
      exact List.take_left t (')' :: r)
    have hget : s.get? t.length = some ')' := by
      rw [hs, List.get?_eq_getElem?, List.getElem?_append_right (Nat.le_refl _)]
      simp
    by_cases heq : t.length = j + 1
    · have htake2 : s.take (j + 1) = t := by rw [← heq]; exact htake
      have c1 : (s.take (j + 1)).length = j + 1 := by rw [htake2, heq]
      have c2 : (s.take (j + 1)).all Char.isAlphanum = true := by
        rw [htake2]; exact hall
      have c3 : s.get? (j + 1) = some ')' := by rw [← heq]; exact hget
      unfold emoTry
      rw [if_pos ⟨c1, c2, c3⟩, htake2]
    · have hlt : t.length ≤ j := by omega
      unfold emoTry
      rw [if_neg ?_]
      · exact ih t r hlt h1 hall hs
      · rintro ⟨hlen, halln, hgetn⟩
        have hmem : (')' : Char) ∈ s.take (j + 1) := by
          have : (s.take (j + 1)).get? t.length = some ')' := by
            rw [List.get?_eq_getElem?, List.getElem?_take_of_lt (by omega),
              ← List.get?_eq_getElem?]
            exact hget
          exact List.get?_mem this
        have : (')' : Char).isAlphanum = true := List.all_eq_true.mp halln _ hmem
        cases this

/-- C4: `Pattern.emoticon` matches at a position exactly when the previous
character is `(` and the text starts with a 1–15 character alphanumeric
token followed by `)`, the captured text being the inner token without the
parentheses; and find-all on
`"(lol) text (agree) (toolongtokentoolongtoken)"` yields
`["lol", "agree"]`, the over-length token being rejected. -/
theorem emoticon_matches_tokens :
    (∀ (prev : Option Char) (s t : List Char),
        emoticonMatch prev s = some t ↔ emoticonSpec prev s t)
    ∧ findall emoticonMatch ("(lol) text (agree) (toolongtokentoolongtoken)".toList)
        = ["lol".toList, "agree".toList] := by
  constructor
  · intro prev s t
    constructor
    · intro h
      unfold emoticonMatch at h
      by_cases hp : prev = some '('
      · rw [if_pos hp] at h
        rcases emoTry_sound s 15 t h with ⟨h1, h2, h3, h4, h5⟩
        refine ⟨hp, h1, h2, h3, s.drop (t.length + 1), ?_⟩
        conv_lhs => rw [← List.take_append_drop t.length s, h4]
        congr 1
        have hlt : t.length < s.length := by
          by_contra hge
          rw [List.get?_eq_getElem?, List.getElem?_eq_none (by omega)] at h5
          cases h5
        rw [List.drop_eq_getElem_cons hlt]
        congr 1
        rw [List.get?_eq_getElem?] at h5
        rw [List.getElem?_eq_getElem hlt] at h5
        exact Option.some.inj h5
      · rw [if_neg hp] at h; cases h
    · rintro ⟨hp, h1, h15, hall, r, rfl⟩
      unfold emoticonMatch
      rw [if_pos hp]
      exact emoTry_complete _ 15 t r h15 h1 hall rfl
  · decide

/-- Witness for C4 at a concrete input: after a `(`, the token `"ok"`
followed by `)` is captured without the parentheses. -/
theorem emoticon_matches_tokens_witness :
    emoticonMatch (some '(') ("ok)".toList) = some ("ok".toList) :=
  (emoticon_matches_tokens.1 (some '(') ("ok)".toList) ("ok".toList)).mpr
    ⟨rfl, by decide, by decide, by decide, [], by decide⟩

/-- C5: on `"visit http://example.com/path?x=1 or google.com"`, `Pattern.url`
find-all produces exactly the scheme-prefixed URL and the bare-domain token;
at the position of the first match the scheme branch (tried first) matches the
full 27 characters, while at the bare-domain position the scheme branch
fails and the `\S+[.][a-zA-Z]{2,6}` branch matches the 10 characters of
`"google.com"`. -/
theorem url_matches_text :
    findall urlMatch ("visit http://example.com/path?x=1 or google.com".toList)
        = ["http://example.com/path?x=1".toList, "google.com".toList]
    ∧ urlBranch1 (("visit http://example.com/path?x=1 or google.com".toList).drop 6)
        = some 27
    ∧ urlBranch1 (("visit http://example.com/path?x=1 or google.com".toList).drop 37)
        = none
    ∧ urlBranch2 (("visit http://example.com/path?x=1 or google.com".toList).drop 37)
        (nonWsRun (("visit http://example.com/path?x=1 or google.com".toList).drop 37))
        = some 10 :=
  ⟨by decide, by decide, by decide, by decide⟩

/-- C1: `HTML.iter` forwards the event stream of the engine elementwise, so
whenever the recoverable engine — per the collaborator contract in the spec on
unparsable content — emits exactly one event carrying a paragraph element
whose text is the input decoded as plain text, `HTML.iter` yields exactly
that one element; and it is total, a plain function into `List` with no
failure path. -/
theorem HTML.iter_unparsable_fallback (engine : IterparseEngine)
    (content : List Nat) (a t : String)
    (h : engine.iterparse content = [(a, ⟨"p", t⟩)]) :
    HTML.iter engine content = [⟨"p", t⟩] := by
  simp [HTML.iter, h]

/-- Witness for C1 at a concrete input: an engine that degrades the noise
bytes `[0, 159, 255]` to one paragraph event makes `HTML.iter` yield that
single paragraph element. -/
theorem HTML.iter_unparsable_fallback_witness :
    HTML.iter ⟨fun _ => [("end", ⟨"p", "raw noise"⟩)]⟩ [0, 159, 255]
      = [⟨"p", "raw noise"⟩] :=
  HTML.iter_unparsable_fallback ⟨fun _ => [("end", ⟨"p", "raw noise"⟩)]⟩
    [0, 159, 255] "end" "raw noise" rfl

end Msgparse
